import Mathlib

/-!
Shallow embedding of the attrition computation engine of `bda-web`.

The engine lives in two places in the repository:

* `src/unnamed/part_001` (the `libcompute` module): `normalizeBn`,
  `groupForBn`, `clamp`, `safeNum`, `remainingAfterDays`,
  `daysToReachFraction`, `normalizeDestroyedByDay` and `computeRows`.
* `src/src/app/page.tsx`: `clampInt`, a second `normalizeDestroyedByDay`
  and `inferDailyAttritionPct`.

JavaScript numbers are modelled as exact rationals where every operation
of the translated code stays in the rationals (integer arithmetic,
`Math.floor`, `Math.round`, `Math.max`/`Math.min`, natural powers), and as
real numbers where the code is genuinely transcendental
(`Math.pow` with a fractional exponent in `inferDailyAttritionPct`,
`Math.log` in `daysToReachFraction`).  Values that are not finite numbers
(NaN, infinities, `undefined`, `null`, non-numeric garbage) are modelled
by the explicit `JsVal` type below where a claim quantifies over them.
-/

/-- Runtime JavaScript value reaching a numeric coercion site: a finite
number, a value whose `Number` coercion is NaN or infinite (NaN itself,
a non-numeric string, an infinity), or a nullish value
(`undefined`, including an out-of-range array read, or `null`). -/
inductive JsVal where
  | num (q : ℚ)
  | nan
  | nullish
  deriving DecidableEq, Repr

/-- Model of `safeNum` (libcompute): `Number(v)` if finite, else `0`.
`Number(null) = 0`, `Number(undefined) = NaN`, so every non-`num` case
collapses to `0`. -/
def safeNum : JsVal → ℚ
  | .num q => q
  | .nan => 0
  | .nullish => 0

/-- Model of `clamp(n, min, max) = Math.max(min, Math.min(max, n))`
from libcompute. -/
def clamp (n lo hi : ℚ) : ℚ :=
  max lo (min hi n)

/-- Model of `Math.round`: round half toward positive infinity. -/
def jround (q : ℚ) : ℤ :=
  ⌊q + 1 / 2⌋

/-- The JavaScript constant `Number.MAX_SAFE_INTEGER`. -/
def MAX_SAFE_INTEGER : ℚ :=
  9007199254740991

/-- Model of `remainingAfterDays(start, dailyPct, day)` from libcompute:
the compound attrition model `remaining = start * (1 - p)^day` with
`p = dailyPct / 100` and `day` floored at or above zero, with early
returns for `start <= 0`, `p <= 0` and `p >= 1`.  All quantities stay
rational because the exponent is a non-negative integer. -/
def remainingAfterDays (start dailyPct day : ℚ) : ℚ :=
  let p := safeNum (.num dailyPct) / 100
  let d := (max 0 ⌊safeNum (.num day)⌋).toNat
  if start ≤ 0 then 0
  else if p ≤ 0 then start
  else if 1 ≤ p then 0
  else start * (1 - p) ^ d

/-- C3: the decay model returns `start * (1 - rate/100) ^ ⌊day⌋` in the
main branch (for `0 < rate/100 < 1` and `start > 0`), and follows the edge
policy `start ≤ 0 → 0`, `rate/100 ≤ 0 → start`, `rate/100 ≥ 1 → 0`, for
every start, rate and non-negative day. -/
theorem remainingAfterDays_spec (start rate day : ℚ) (hday : 0 ≤ day) :
    (start ≤ 0 → remainingAfterDays start rate day = 0) ∧
    (0 < start → rate / 100 ≤ 0 → remainingAfterDays start rate day = start) ∧
    (0 < start → 1 ≤ rate / 100 → remainingAfterDays start rate day = 0) ∧
    (0 < start → 0 < rate / 100 → rate / 100 < 1 →
      remainingAfterDays start rate day = start * (1 - rate / 100) ^ ⌊day⌋.toNat) := by
  have hmax : max (0:ℤ) ⌊day⌋ = ⌊day⌋ := max_eq_right (Int.floor_nonneg.mpr hday)
  simp only [remainingAfterDays, safeNum, hmax]
  refine ⟨fun h => ?_, fun h0 hp => ?_, fun h0 hp => ?_, fun h0 hp0 hp1 => ?_⟩ <;>
    split_ifs <;> first | rfl | linarith

/-- Witness for C3 at `start = 100`, `rate = 50`, `day = 2`. -/
theorem remainingAfterDays_spec_witness :
    (((100:ℚ) ≤ 0 → remainingAfterDays 100 50 2 = 0) ∧
     ((0:ℚ) < 100 → (50:ℚ) / 100 ≤ 0 → remainingAfterDays 100 50 2 = 100) ∧
     ((0:ℚ) < 100 → (1:ℚ) ≤ 50 / 100 → remainingAfterDays 100 50 2 = 0) ∧
     ((0:ℚ) < 100 → (0:ℚ) < 50 / 100 → (50:ℚ) / 100 < 1 →
       remainingAfterDays 100 50 2 = 100 * (1 - 50 / 100) ^ (⌊(2:ℚ)⌋).toNat)) ∧
    remainingAfterDays 100 50 2 = 25 := by
  refine ⟨remainingAfterDays_spec 100 50 2 (by norm_num), ?_⟩
  norm_num [remainingAfterDays, safeNum, Int.toNat]

/-- C8: for a fixed start and rate, the decay model is non-increasing in
the day over the non-negative integers. -/
theorem remainingAfterDays_antitone (start rate : ℚ) (d1 d2 : ℕ) (h : d1 ≤ d2) :
    remainingAfterDays start rate (d2 : ℚ) ≤ remainingAfterDays start rate (d1 : ℚ) := by
  have hf1 : (max (0:ℤ) ⌊(d1 : ℚ)⌋).toNat = d1 := by
    rw [Int.floor_natCast, max_eq_right (Int.natCast_nonneg d1), Int.toNat_natCast]
  have hf2 : (max (0:ℤ) ⌊(d2 : ℚ)⌋).toNat = d2 := by
    rw [Int.floor_natCast, max_eq_right (Int.natCast_nonneg d2), Int.toNat_natCast]
  simp only [remainingAfterDays, safeNum, hf1, hf2]
  split_ifs with h1 h2 h3
  · exact le_refl _
  · exact le_refl _
  · exact le_refl _
  · push_neg at h1 h2 h3
    have hbase0 : (0:ℚ) ≤ 1 - rate / 100 := by linarith
    have hbase1 : (1:ℚ) - rate / 100 ≤ 1 := by linarith
    exact mul_le_mul_of_nonneg_left (pow_le_pow_of_le_one hbase0 hbase1 h) (le_of_lt h1)

/-- Witness for C8 at `start = 100`, `rate = 50`, days `1 ≤ 2`. -/
theorem remainingAfterDays_antitone_witness :
    remainingAfterDays 100 50 ((2:ℕ) : ℚ) ≤ remainingAfterDays 100 50 ((1:ℕ) : ℚ) :=
  remainingAfterDays_antitone 100 50 1 2 (by norm_num)

/-- Model of the tail of `daysToReachFraction`: the computed day `d` is
returned (rounded up) unless it fails the `!Number.isFinite(d) || d < 0`
guard.  Over the real numbers every value is finite, so only the
negativity test of that guard remains. -/
noncomputable def finishProjectedDay (d : ℝ) : Option ℤ :=
  if d < 0 then none else some ⌈d⌉

/-- Model of `daysToReachFraction(dailyPct, targetFraction)` from
libcompute; `null` becomes `none`.  `safeNum(dailyPct)` is the identity on
the real-number model of a numeric argument. -/
noncomputable def daysToReachFraction (dailyPct targetFraction : ℝ) : Option ℤ :=
  let p := dailyPct / 100
  if targetFraction ≤ 0 then some 0
  else if 1 ≤ targetFraction then none
  else if p ≤ 0 then none
  else if 1 ≤ p then some 0
  else finishProjectedDay (Real.log targetFraction / Real.log (1 - p))

/-- C7: boundary behaviour of the threshold projector: target `0` gives
day `0` for every rate; rate `0` is unreachable for any target strictly
between `0` and `1`; a target at or above `1` is unreachable; a rate
fraction at or above `1` gives day `0`; and a negative computed day is
mapped to unreachable by the final guard. -/
theorem daysToReachFraction_edges :
    (∀ rate : ℝ, daysToReachFraction rate 0 = some 0) ∧
    (∀ f : ℝ, 0 < f → f < 1 → daysToReachFraction 0 f = none) ∧
    (∀ rate f : ℝ, 1 ≤ f → daysToReachFraction rate f = none) ∧
    (∀ rate f : ℝ, 0 < f → f < 1 → 100 ≤ rate → daysToReachFraction rate f = some 0) ∧
    (∀ d : ℝ, d < 0 → finishProjectedDay d = none) := by
  refine ⟨fun rate => ?_, fun f h0 h1 => ?_, fun rate f h1 => ?_,
      fun rate f h0 h1 hr => ?_, fun d hd => ?_⟩
  · simp [daysToReachFraction]
  · simp only [daysToReachFraction]
    rw [if_neg (by linarith), if_neg (by linarith), if_pos (by norm_num)]
  · simp only [daysToReachFraction]
    rw [if_neg (by linarith), if_pos h1]
  · have hp : (1:ℝ) ≤ rate / 100 := by linarith
    simp only [daysToReachFraction]
    rw [if_neg (by linarith), if_neg (by linarith), if_neg (by push_neg; linarith),
      if_pos hp]
  · simp [finishProjectedDay, hd]

/-- Witness for C7 at rate `7`, target `1/2`, rate `150`, day `-3`. -/
theorem daysToReachFraction_edges_witness :
    daysToReachFraction 7 0 = some 0 ∧
    daysToReachFraction 0 (1/2) = none ∧
    daysToReachFraction 3 2 = none ∧
    daysToReachFraction 150 (1/2) = some 0 ∧
    finishProjectedDay (-3) = none :=
  ⟨daysToReachFraction_edges.1 7,
   daysToReachFraction_edges.2.1 (1/2) (by norm_num) (by norm_num),
   daysToReachFraction_edges.2.2.1 3 2 (by norm_num),
   daysToReachFraction_edges.2.2.2.1 150 (1/2) (by norm_num) (by norm_num) (by norm_num),
   daysToReachFraction_edges.2.2.2.2 (-3) (by norm_num)⟩

/-! ### Rate inference (`src/src/app/page.tsx`)

The inference function computes a real `d`-th root
(`Math.pow(frac, 1 / d)`), so this part of the embedding lives in the
real numbers.  `remainingAfterDaysR` is the same `remainingAfterDays`
source function embedded at real-valued arguments, as used when the
inferred (generally irrational) rate is fed back into the decay model;
`remainingAfterDaysR_ratCast` below shows the two embeddings agree on
rational inputs. -/

/-- Model of `remainingAfterDays` at real-valued arguments. -/
noncomputable def remainingAfterDaysR (start dailyPct day : ℝ) : ℝ :=
  let p := dailyPct / 100
  let d := (max 0 ⌊day⌋).toNat
  if start ≤ 0 then 0
  else if p ≤ 0 then start
  else if 1 ≤ p then 0
  else start * (1 - p) ^ d

/-- The rational and real embeddings of `remainingAfterDays` agree on
rational inputs. -/
theorem remainingAfterDaysR_ratCast (start dailyPct day : ℚ) :
    remainingAfterDaysR (start : ℝ) (dailyPct : ℝ) (day : ℝ)
      = ((remainingAfterDays start dailyPct day : ℚ) : ℝ) := by
  simp only [remainingAfterDaysR, remainingAfterDays, safeNum, Rat.floor_cast]
  have hp : ((dailyPct : ℝ) / 100) = ((dailyPct / 100 : ℚ) : ℝ) := by push_cast; ring
  rw [hp]
  by_cases h1 : start ≤ (0:ℚ)
  · rw [if_pos (by exact_mod_cast h1), if_pos h1, Rat.cast_zero]
  · rw [if_neg (by exact_mod_cast h1), if_neg h1]
    by_cases h2 : (dailyPct / 100 : ℚ) ≤ 0
    · rw [if_pos (by exact_mod_cast h2), if_pos h2]
    · rw [if_neg (by exact_mod_cast h2), if_neg h2]
      by_cases h3 : (1:ℚ) ≤ dailyPct / 100
      · rw [if_pos (by exact_mod_cast h3), if_pos h3, Rat.cast_zero]
      · rw [if_neg (by exact_mod_cast h3), if_neg h3]; push_cast; ring

/-- Model of the `normalizeDestroyedByDay` defined in `page.tsx`, on an
array of numbers:
`[0,0,0,0,0].map((_, i) => Math.max(0, Math.floor(Number(base[i] ?? 0))))`.
An out-of-range read gives `undefined`, and `undefined ?? 0` is `0`. -/
noncomputable def normalizeDestroyedByDayR (arr : List ℝ) : List ℝ :=
  (List.range 5).map fun i => max 0 ((⌊arr.getD i 0⌋ : ℤ) : ℝ)

/-- Model of `clampInt(n, min, max)` from `page.tsx`:
`Math.max(min, Math.min(max, Math.floor(Number(n) || 0)))`. -/
noncomputable def clampInt (n : ℝ) (lo hi : ℤ) : ℤ :=
  max lo (min hi ⌊n⌋)

/-- Model of `inferDailyAttritionPct(onHand, destroyedByDay, day)` from
`page.tsx`. -/
noncomputable def inferDailyAttritionPct
    (onHand : ℝ) (destroyedByDay : List ℝ) (day : ℝ) : ℝ :=
  let oh : ℤ := max 0 ⌊onHand⌋
  let d : ℤ := clampInt day 1 5
  if oh ≤ 0 then 0
  else
    let byDay := normalizeDestroyedByDayR destroyedByDay
    let cumDestroyed := (byDay.take d.toNat).sum
    let remaining : ℝ := max 0 ((oh : ℝ) - cumDestroyed)
    let frac := remaining / (oh : ℝ)
    if frac ≤ 0 then 100
    else if 1 ≤ frac then 0
    else max 0 (min 100 ((1 - frac ^ ((1:ℝ) / (d : ℝ))) * 100))

/-- Model of `Math.round` on the reals. -/
noncomputable def jroundR (x : ℝ) : ℤ :=
  ⌊x + 1 / 2⌋

/-- Helper: `Math.round` of an integer is that integer. -/
theorem jroundR_intCast (z : ℤ) : jroundR (z : ℝ) = z := by
  unfold jroundR
  rw [add_comm, Int.floor_add_int]
  norm_num

/-- Helper: the page normalizer is the identity on a 5-entry list of
natural numbers. -/
theorem normalizeDestroyedByDayR_natList (l : List ℕ) (hlen : l.length = 5) :
    normalizeDestroyedByDayR (l.map (Nat.cast : ℕ → ℝ)) = l.map (Nat.cast : ℕ → ℝ) := by
  apply List.ext_getElem
  · simp [normalizeDestroyedByDayR, hlen]
  · intro i h1 h2
    have hi : i < 5 := by simpa [normalizeDestroyedByDayR] using h1
    have hi2 : i < l.length := by omega
    simp only [normalizeDestroyedByDayR, List.getElem_map, List.getElem_range]
    rw [List.getD_eq_getElem _ _ (by simpa using hi2)]
    simp

/-- Helper: reduction of the rate inference on a 5-entry list of natural
counts with the day already inside `[1, 5]`. -/
theorem inferDailyAttritionPct_natInput (oh d : ℕ) (e : List ℕ) (hlen : e.length = 5)
    (hd1 : 1 ≤ d) (hd5 : d ≤ 5) :
    inferDailyAttritionPct (oh : ℝ) (e.map (Nat.cast : ℕ → ℝ)) (d : ℝ)
      = if (oh:ℤ) ≤ 0 then 0
        else if ((oh:ℝ) - ((e.take d).sum : ℕ)) / (oh:ℝ) ≤ 0 then 100
        else if 1 ≤ ((oh:ℝ) - ((e.take d).sum : ℕ)) / (oh:ℝ) then 0
        else max 0 (min 100
          ((1 - (((oh:ℝ) - ((e.take d).sum : ℕ)) / (oh:ℝ)) ^ ((1:ℝ) / (d:ℝ))) * 100)) := by
  have hdz : clampInt (d : ℝ) 1 5 = (d : ℤ) := by
    unfold clampInt
    rw [Int.floor_natCast, min_eq_right (by exact_mod_cast hd5),
      max_eq_right (by exact_mod_cast hd1)]
  have hmaxsub : ∀ x : ℝ, 0 ≤ x → max (0:ℝ) x = x := fun x hx => max_eq_right hx
  simp only [inferDailyAttritionPct, hdz,
    normalizeDestroyedByDayR_natList e hlen, Int.floor_natCast,
    max_eq_right (Int.natCast_nonneg oh), Int.toNat_natCast, ← List.map_take,
    ← Nat.cast_list_sum, Int.cast_natCast]
  by_cases hoh : (oh:ℤ) ≤ 0
  · rw [if_pos hoh, if_pos hoh]
  · rw [if_neg hoh, if_neg hoh]
    have hohR : (0:ℝ) < (oh:ℝ) := by
      have : (0:ℤ) < (oh:ℤ) := lt_of_not_le hoh
      exact_mod_cast this
    by_cases hover : ((e.take d).sum : ℝ) ≤ (oh:ℝ)
    · rw [hmaxsub _ (by linarith)]
    · have hneg : (oh:ℝ) - ((e.take d).sum : ℕ) < 0 := by push_neg at hover; linarith
      rw [max_eq_left (by linarith)]
      rw [if_pos (by simp), if_pos (div_nonpos_of_nonpos_of_nonneg (le_of_lt hneg) (le_of_lt hohR))]

/-- C1 (amended): the rate-inference / decay-model round-trip.  For a
non-negative integer on-hand count, a 5-entry list of non-negative
integer daily destroyed counts, a day in `[1, 5]`, and a cumulative
destroyed count through that day not exceeding the on-hand count,
rounding `onHand - remaining(onHand, inferRate(onHand, e, day), day)`
recovers the cumulative destroyed count exactly (in particular to
within the ±1 allowed by the claim). -/
theorem infer_remaining_roundtrip (oh d : ℕ) (e : List ℕ) (hlen : e.length = 5)
    (hd1 : 1 ≤ d) (hd5 : d ≤ 5) (hcum : (e.take d).sum ≤ oh) :
    jroundR ((oh : ℝ) - remainingAfterDaysR (oh : ℝ)
        (inferDailyAttritionPct (oh : ℝ) (e.map (Nat.cast : ℕ → ℝ)) (d : ℝ)) (d : ℝ))
      = ((e.take d).sum : ℤ) := by
  set N : ℕ := (e.take d).sum with hN
  have hinfer := inferDailyAttritionPct_natInput oh d e hlen hd1 hd5
  rw [← hN] at hinfer
  have hdN : (max (0:ℤ) ⌊((d:ℕ):ℝ)⌋).toNat = d := by
    rw [Int.floor_natCast, max_eq_right (Int.natCast_nonneg d), Int.toNat_natCast]
  rcases Nat.eq_zero_or_pos oh with h0 | hpos
  · -- on-hand of zero: the inferred rate is 0 and both sides are 0
    have hN0 : N = 0 := by omega
    subst h0
    rw [hinfer, if_pos (by norm_num)]
    simp only [Nat.cast_zero, hN0]
    rw [show remainingAfterDaysR (0:ℝ) 0 (d:ℝ) = 0 by
      simp [remainingAfterDaysR]]
    norm_num [jroundR]
  · have hohR : (0:ℝ) < (oh:ℝ) := by exact_mod_cast hpos
    have hohZ : ¬ ((oh:ℤ) ≤ 0) := by
      push_neg
      exact_mod_cast hpos
    have hNle : (N:ℝ) ≤ (oh:ℝ) := by exact_mod_cast hcum
    rw [hinfer, if_neg hohZ]
    rcases Nat.eq_zero_or_pos N with hN0 | hNpos
    · -- no observed loss: inferred rate 0, remaining is the full count
      rw [hN0]
      have hfrac : ((oh:ℝ) - ((0:ℕ):ℝ)) / (oh:ℝ) = 1 := by
        rw [Nat.cast_zero, sub_zero, div_self (ne_of_gt hohR)]
      rw [hfrac, if_neg (by norm_num), if_pos (le_refl 1)]
      rw [show remainingAfterDaysR (oh:ℝ) 0 (d:ℝ) = (oh:ℝ) by
        rw [remainingAfterDaysR]
        rw [if_neg (not_le.mpr hohR), if_pos (by norm_num)]]
      rw [sub_self]
      norm_num [jroundR]
    · rcases eq_or_lt_of_le hNle with hNe | hNlt
      · -- total observed loss: inferred rate 100, remaining 0
        have hfrac : ((oh:ℝ) - (N:ℝ)) / (oh:ℝ) = 0 := by
          rw [hNe, sub_self, zero_div]
        rw [hfrac, if_pos (le_refl 0)]
        rw [show remainingAfterDaysR (oh:ℝ) 100 (d:ℝ) = 0 by
          rw [remainingAfterDaysR]
          rw [if_neg (not_le.mpr hohR), if_neg (by norm_num), if_pos (by norm_num)]]
        rw [sub_zero, ← hNe]
        rw [show (N:ℝ) = ((N:ℤ):ℝ) by push_cast; rfl, jroundR_intCast]
      · -- partial loss: the inferred rate reproduces the loss exactly
        set frac : ℝ := ((oh:ℝ) - (N:ℝ)) / (oh:ℝ) with hfracDef
        have hfrac0 : 0 < frac := div_pos (by linarith) hohR
        have hfrac1 : frac < 1 := by
          rw [hfracDef, div_lt_one hohR]
          have : (0:ℝ) < (N:ℝ) := by exact_mod_cast hNpos
          linarith
        have hdR : (0:ℝ) < (d:ℝ) := by exact_mod_cast hd1
        set x : ℝ := frac ^ ((1:ℝ) / (d:ℝ)) with hxDef
        have hx0 : 0 < x := Real.rpow_pos_of_pos hfrac0 _
        have hx1 : x < 1 :=
          Real.rpow_lt_one (le_of_lt hfrac0) hfrac1 (by positivity)
        have hclip : max (0:ℝ) (min 100 ((1 - x) * 100)) = (1 - x) * 100 := by
          rw [min_eq_right (by nlinarith), max_eq_right (by nlinarith)]
        rw [if_neg (not_le.mpr hfrac0), if_neg (not_le.mpr hfrac1), hclip]
        have hxpow : x ^ (d:ℕ) = frac := by
          rw [hxDef, ← Real.rpow_natCast (frac ^ ((1:ℝ)/(d:ℝ))) d,
            ← Real.rpow_mul (le_of_lt hfrac0),
            one_div_mul_cancel (ne_of_gt hdR), Real.rpow_one]
        have hrem : remainingAfterDaysR (oh:ℝ) ((1 - x) * 100) (d:ℝ)
            = (oh:ℝ) - (N:ℝ) := by
          have hp : (1 - x) * 100 / 100 = 1 - x := by ring
          simp only [remainingAfterDaysR, hp, hdN]
          rw [if_neg (not_le.mpr hohR),
            if_neg (not_le.mpr (by linarith : (0:ℝ) < 1 - x)),
            if_neg (by push_neg; linarith : ¬ (1:ℝ) ≤ 1 - x),
            sub_sub_cancel, hxpow, hfracDef, mul_comm,
            div_mul_cancel₀ _ (ne_of_gt hohR)]
        rw [hrem, sub_sub_cancel]
        rw [show (N:ℝ) = ((N:ℤ):ℝ) by push_cast; rfl, jroundR_intCast]

/-- Witness for C1 (amended) at `onHand = 44`, `destroyedByDay = [1,0,0,0,0]`,
`day = 1`. -/
theorem infer_remaining_roundtrip_witness :
    jroundR (((44:ℕ) : ℝ) - remainingAfterDaysR ((44:ℕ) : ℝ)
        (inferDailyAttritionPct ((44:ℕ) : ℝ)
          (([1,0,0,0,0] : List ℕ).map (Nat.cast : ℕ → ℝ)) ((1:ℕ) : ℝ)) ((1:ℕ) : ℝ))
      = ((([1,0,0,0,0] : List ℕ).take 1).sum : ℤ) :=
  infer_remaining_roundtrip 44 1 [1,0,0,0,0] (by decide) (by decide) (by decide)
    (by decide)

/-- Counterexample for C1 as stated: with `onHand = 10`,
`destroyedByDay = [20,0,0,0,0]` and `day = 1` the cumulative manual
destroyed through day 1 is `20`, but the round-trip value is `10`, off
by `10`, not within ±1. -/
theorem infer_remaining_roundtrip_cex :
    ¬ (|jroundR ((10:ℝ) - remainingAfterDaysR 10
          (inferDailyAttritionPct 10 [20,0,0,0,0] 1) 1) - 20| ≤ 1) := by
  have hmap : (([20,0,0,0,0] : List ℕ).map (Nat.cast : ℕ → ℝ))
      = ([20,0,0,0,0] : List ℝ) := by norm_num
  have h := inferDailyAttritionPct_natInput 10 1 [20,0,0,0,0]
    (by decide) (by decide) (by decide)
  rw [hmap] at h
  norm_num at h
  rw [h]
  rw [show remainingAfterDaysR (10:ℝ) 100 1 = 0 by
    norm_num [remainingAfterDaysR]]
  rw [show (10:ℝ) - 0 = ((10:ℤ):ℝ) by norm_num, jroundR_intCast]
  decide

/-- C5 (amended): worked example of rate inference.  With the single
destroyed count recorded on day 1 (`destroyedByDay = [1,0,0,0,0]`),
`onHand = 44` and `day = 1`, the inferred rate is `25/11 ≈ 2.2727` percent
and feeding it back into the decay model returns exactly 43 remaining. -/
theorem example1_amended :
    |inferDailyAttritionPct 44 [1,0,0,0,0] 1 - 2.2727| ≤ 1/1000 ∧
    remainingAfterDaysR 44 (inferDailyAttritionPct 44 [1,0,0,0,0] 1) 1 = 43 := by
  have hmap : (([1,0,0,0,0] : List ℕ).map (Nat.cast : ℕ → ℝ))
      = ([1,0,0,0,0] : List ℝ) := by norm_num
  have h := inferDailyAttritionPct_natInput 44 1 [1,0,0,0,0]
    (by decide) (by decide) (by decide)
  rw [hmap] at h
  norm_num at h
  rw [h]
  constructor
  · rw [abs_le]
    constructor <;> norm_num
  · norm_num [remainingAfterDaysR, Int.toNat]

/-- Counterexample for C5 as stated: with `destroyedByDay = [0,1,0,0,0]`
and `day = 1` the cumulative destroyed through day 1 is 0 (index 0 is
day 1), so the inferred rate is `0`, not approximately `2.2727`, and the
decay model returns `44` remaining, not approximately `43`. -/
theorem example1_cex :
    inferDailyAttritionPct 44 [0,1,0,0,0] 1 = 0 ∧
    remainingAfterDaysR 44 (inferDailyAttritionPct 44 [0,1,0,0,0] 1) 1 = 44 ∧
    ¬ (|inferDailyAttritionPct 44 [0,1,0,0,0] 1 - 2.2727| ≤ 1) := by
  have hmap : (([0,1,0,0,0] : List ℕ).map (Nat.cast : ℕ → ℝ))
      = ([0,1,0,0,0] : List ℝ) := by norm_num
  have h := inferDailyAttritionPct_natInput 44 1 [0,1,0,0,0]
    (by decide) (by decide) (by decide)
  rw [hmap] at h
  norm_num at h
  rw [h]
  refine ⟨rfl, ?_, ?_⟩
  · norm_num [remainingAfterDaysR]
  · rw [abs_le]
    norm_num

/-! ### Normalizers and the row/rollup engine (`src/unnamed/part_001`) -/

/-- Model of `normalizeDestroyedByDay(arr?)` from libcompute.  A missing
or non-array argument yields the empty base array; each of the 5 slots
is `clamp(Math.round(safeNum(base[i])), 0, Number.MAX_SAFE_INTEGER)`,
where an out-of-range read gives `undefined` (nullish, `safeNum` 0). -/
def normalizeDestroyedByDay (arr : Option (List JsVal)) : List ℚ :=
  let base := arr.getD []
  (List.range 5).map fun i =>
    clamp ((jround (safeNum (base.getD i .nullish)) : ℤ) : ℚ) 0 MAX_SAFE_INTEGER

/-- Result of a JavaScript arithmetic step in the page-level normalizer:
a number or NaN.  An infinite value behaves like NaN for the purposes of
this model (both survive `Math.floor`/`Math.max` as non-integers; the
difference is not observable in any claim). -/
inductive JsNum where
  | num (q : ℚ)
  | nan
  deriving DecidableEq, Repr

/-- Model of `Math.floor` on a possibly-NaN value. -/
def jsFloorN : JsNum → JsNum
  | .num q => .num (((⌊q⌋ : ℤ) : ℚ))
  | .nan => .nan

/-- Model of `Math.max(0, x)` on a possibly-NaN value
(`Math.max(0, NaN)` is NaN). -/
def jsMax0 : JsNum → JsNum
  | .num q => .num (max 0 q)
  | .nan => .nan

/-- Model of `Number(v ?? 0)`: a nullish value (absent entry, `null` or
`undefined`) coalesces to `0`; a finite number passes through; a value
whose numeric coercion is not finite gives NaN. -/
def jsNumberCoalesce0 : JsVal → JsNum
  | .num q => .num q
  | .nan => .nan
  | .nullish => .num 0

/-- Model of the `normalizeDestroyedByDay` defined in `page.tsx`:
`[0,0,0,0,0].map((_, i) => Math.max(0, Math.floor(Number(base[i] ?? 0))))`.
Unlike the libcompute version there is no `safeNum` guard, so a NaN
entry propagates through floor and max. -/
def pageNormalizeDestroyedByDay (arr : Option (List JsVal)) : List JsNum :=
  let base := arr.getD []
  (List.range 5).map fun i =>
    jsMax0 (jsFloorN (jsNumberCoalesce0 (base.getD i .nullish)))

/-- The whitespace characters matched by the `\s` regex class (the
ASCII/Latin-1 part; the model takes this finite set as the whitespace
alphabet). -/
def isJsWhitespace (c : Char) : Bool :=
  c == ' ' || c == '\t' || c == '\n' || c == '\r' || c == '\x0b' || c == '\x0c'

/-- Model of `String.prototype.trim`: drop whitespace from both ends. -/
def trimWs (l : List Char) : List Char :=
  ((l.dropWhile fun c => isJsWhitespace c).reverse.dropWhile fun c =>
    isJsWhitespace c).reverse

/-- Worker for `collapseWs`: the flag records whether the previous
character belonged to a whitespace run (in which case further whitespace
of the same run is dropped). -/
def collapseWsAux : Bool → List Char → List Char
  | _, [] => []
  | inRun, c :: rest =>
    if isJsWhitespace c then
      if inRun then collapseWsAux true rest else ' ' :: collapseWsAux true rest
    else c :: collapseWsAux false rest

/-- Model of `.replace(/\s+/g, " ")`: every maximal run of whitespace
becomes a single space. -/
def collapseWs (l : List Char) : List Char :=
  collapseWsAux false l

/-- The `OS_SS_ALIASES` set from libcompute. -/
def OS_SS_ALIASES : List String :=
  ["OS/SS", "OSSS", "OS-SS", "OS & SS", "OS AND SS"]

/-- The `BCG_165_BNS` set from libcompute. -/
def BCG_165_BNS : List String :=
  ["1651", "1652", "1653", "1654", "1657", "1658", "1659"]

/-- Model of `normalizeBn(raw)` from libcompute: trim, uppercase
(`Char.toUpper` models `toUpperCase`), collapse whitespace runs, then
fold the OS/SS alias variants to the canonical token. -/
def normalizeBn (raw : String) : String :=
  let s := String.mk (collapseWs ((trimWs raw.toList).map Char.toUpper))
  if s ∈ OS_SS_ALIASES then "OS/SS" else s

/-- Model of `groupForBn(rawBn)` from libcompute. -/
inductive GroupKey where
  | bcg165
  | other
  deriving DecidableEq, Repr

/-- String form of a group key, as used by the sort comparator
(`"165_BCG"` and `"OTHER"`). -/
def groupKeyString : GroupKey → String
  | .bcg165 => "165_BCG"
  | .other => "OTHER"

/-- Model of `groupForBn` from libcompute. -/
def groupForBn (rawBn : String) : GroupKey :=
  let bn := normalizeBn rawBn
  if bn = "OS/SS" then .bcg165
  else if bn ∈ BCG_165_BNS then .bcg165
  else .other

/-- Model of the `TrackerRow` input record.  Numeric fields carry finite
numbers; the daily destroyed array may be absent (or a non-array value,
which `Array.isArray` treats the same way) and may contain arbitrary
runtime values. -/
structure TrackerRow where
  id : String
  bn : String
  equipmentType : String
  onHand : ℚ
  dailyAttritionPct : ℚ
  destroyedManual : Option ℚ
  destroyedByDay : Option (List JsVal)

/-- Model of the `ComputedRow` output record. -/
structure ComputedRow where
  id : String
  bn : String
  equipmentType : String
  onHand : ℚ
  dailyAttritionPct : ℚ
  destroyedManual : ℚ
  destroyedByDay : Option (List JsVal)
  destroyedAttrition : ℚ
  destroyed : ℚ
  remaining : ℚ
  combatPowerPct : ℚ
  daysTo25Pct : Option ℤ
  destroyedManualActive : ℚ
  destroyedManualTotal : ℚ

/-- Model of the `BnSummary` record. -/
structure BnSummary where
  bn : String
  onHand : ℚ
  remaining : ℚ
  destroyed : ℚ
  combatPowerPct : ℚ
  daysTo25Pct : Option ℤ

/-- Model of the `GroupSummary` record. -/
structure GroupSummary where
  group : GroupKey
  onHand : ℚ
  remaining : ℚ
  destroyed : ℚ
  combatPowerPct : ℚ
  daysTo25Pct : Option ℤ

/-- Model of the manual-destroyed computation in `computeRows` (lines
146–157): with a daily array present, the active value sums the first
`day` normalized entries and the total sums all five; otherwise both
equal `Math.max(0, Math.floor(safeNum(row.destroyedManual ?? 0)))`.
Returns `(active, total)`. -/
def manualDestroyedParts (row : TrackerRow) (day : ℚ) : ℚ × ℚ :=
  match row.destroyedByDay with
  | some arr =>
    let byDay := normalizeDestroyedByDay (some arr)
    ((byDay.take ⌊day⌋.toNat).sum, byDay.sum)
  | none =>
    let t : ℚ := ((max 0 ⌊row.destroyedManual.getD 0⌋ : ℤ) : ℚ)
    (t, t)

/-- Model of the per-row body of `computeRows` (the `rows.map` closure). -/
noncomputable def computeRow (day : ℚ) (useAttrition manualWins : Bool)
    (row : TrackerRow) : ComputedRow :=
  let onHand : ℚ := ((max 0 ⌊safeNum (.num row.onHand)⌋ : ℤ) : ℚ)
  let parts := manualDestroyedParts row day
  let manual := clamp parts.1 0 onHand
  let destroyedAttrition : ℚ :=
    if useAttrition then
      clamp ((jround (onHand - remainingAfterDays onHand row.dailyAttritionPct day) : ℤ) : ℚ)
        0 onHand
    else 0
  let destroyed :=
    if useAttrition then
      (if manualWins then max manual destroyedAttrition else destroyedAttrition)
    else manual
  let remaining := max 0 (onHand - destroyed)
  let combatPowerPct := if 0 < onHand then remaining / onHand * 100 else 0
  let daysTo25Pct :=
    if 0 < onHand then daysToReachFraction (row.dailyAttritionPct : ℝ) 0.25 else none
  { id := row.id
    bn := normalizeBn row.bn
    equipmentType := row.equipmentType
    onHand := onHand
    dailyAttritionPct := row.dailyAttritionPct
    destroyedManual := manual
    destroyedByDay := row.destroyedByDay
    destroyedAttrition := destroyedAttrition
    destroyed := destroyed
    remaining := remaining
    combatPowerPct := combatPowerPct
    daysTo25Pct := daysTo25Pct
    destroyedManualActive := manual
    destroyedManualTotal := clamp parts.2 0 onHand }

/-- Association-list model of the JavaScript `Map` used for the BN
rollup: lookup finds the first entry with the given key. -/
def mapGet : List (String × BnSummary) → String → Option BnSummary
  | [], _ => none
  | p :: rest, k => if p.1 = k then some p.2 else mapGet rest k

/-- Association-list model of `Map.prototype.set`: update the entry in
place if the key is present, otherwise append a new entry (JavaScript
maps preserve insertion order). -/
def mapSet : List (String × BnSummary) → String → BnSummary → List (String × BnSummary)
  | [], k, v => [(k, v)]
  | p :: rest, k, v => if p.1 = k then (k, v) :: rest else p :: mapSet rest k v

/-- The empty per-BN accumulator created when a BN key is first seen. -/
def bnInit (bn : String) : BnSummary :=
  { bn := bn, onHand := 0, remaining := 0, destroyed := 0, combatPowerPct := 0,
    daysTo25Pct := none }

/-- One row being added into a BN accumulator
(`existing.onHand += r.onHand` etc.). -/
def bnAccum (s : BnSummary) (r : ComputedRow) : BnSummary :=
  { s with
    onHand := s.onHand + r.onHand
    remaining := s.remaining + r.remaining
    destroyed := s.destroyed + r.destroyed }

/-- One iteration of the BN rollup loop of `computeRows`: rows with an
empty canonical BN are skipped (`if (!bn) continue`). -/
def bnStep (m : List (String × BnSummary)) (r : ComputedRow) : List (String × BnSummary) :=
  let bn := normalizeBn r.bn
  if bn = "" then m
  else mapSet m bn (bnAccum ((mapGet m bn).getD (bnInit bn)) r)

/-- The BN rollup loop of `computeRows` over all computed rows. -/
def bnFold (crows : List ComputedRow) : List (String × BnSummary) :=
  crows.foldl bnStep []

/-- The finalizing map over BN summaries: derived combat power and the
weighted-attrition day-to-25% projection. -/
noncomputable def bnFinalize (crows : List ComputedRow) (s : BnSummary) : BnSummary :=
  let combatPowerPct := if 0 < s.onHand then s.remaining / s.onHand * 100 else 0
  let bnRows := crows.filter fun r => normalizeBn r.bn == s.bn
  let totalWeight := (bnRows.map fun r => r.onHand).sum
  let weightedAttrition :=
    if 0 < totalWeight then
      (bnRows.map fun r => safeNum (.num r.dailyAttritionPct) * r.onHand).sum / totalWeight
    else 0
  let daysTo25Pct :=
    if 0 < s.onHand then daysToReachFraction (weightedAttrition : ℝ) 0.25 else none
  { s with combatPowerPct := combatPowerPct, daysTo25Pct := daysTo25Pct }

/-- The empty per-group accumulator (both groups are preset in the map
before the loop). -/
def groupInit (g : GroupKey) : GroupSummary :=
  { group := g, onHand := 0, remaining := 0, destroyed := 0, combatPowerPct := 0,
    daysTo25Pct := none }

/-- One row being added into a group accumulator. -/
def groupAccum (s : GroupSummary) (r : ComputedRow) : GroupSummary :=
  { s with
    onHand := s.onHand + r.onHand
    remaining := s.remaining + r.remaining
    destroyed := s.destroyed + r.destroyed }

/-- One iteration of the group rollup loop: the row is added into the
accumulator its membership test selects. -/
def groupStep (acc : GroupSummary × GroupSummary) (r : ComputedRow) :
    GroupSummary × GroupSummary :=
  if groupForBn r.bn = .bcg165 then (groupAccum acc.1 r, acc.2)
  else (acc.1, groupAccum acc.2 r)

/-- The group rollup loop of `computeRows`: the two preset accumulators
(`165_BCG` first, `OTHER` second, in map insertion order) each collect
the rows their membership test selects. -/
def groupFold (crows : List ComputedRow) : GroupSummary × GroupSummary :=
  crows.foldl groupStep (groupInit .bcg165, groupInit .other)

/-- The finalizing map over group summaries. -/
noncomputable def groupFinalize (crows : List ComputedRow) (g : GroupSummary) : GroupSummary :=
  let combatPowerPct := if 0 < g.onHand then g.remaining / g.onHand * 100 else 0
  let groupRows := crows.filter fun r => groupForBn r.bn == g.group
  let totalWeight := (groupRows.map fun r => r.onHand).sum
  let weightedAttrition :=
    if 0 < totalWeight then
      (groupRows.map fun r => safeNum (.num r.dailyAttritionPct) * r.onHand).sum / totalWeight
    else 0
  let daysTo25Pct :=
    if 0 < g.onHand then daysToReachFraction (weightedAttrition : ℝ) 0.25 else none
  { g with combatPowerPct := combatPowerPct, daysTo25Pct := daysTo25Pct }

/-- Model of the options record of `computeRows`; every field is
optional, as is the record itself (an absent record behaves as the
all-`none` record). -/
structure ComputeOpts where
  day : Option ℚ
  useAttrition : Option Bool
  manualWins : Option Bool

/-- The all-defaults options record (`opts` absent). -/
def ComputeOpts.default : ComputeOpts :=
  { day := none, useAttrition := none, manualWins := none }

/-- Model of the result record of `computeRows`. -/
structure ComputeResult where
  computedRows : List ComputedRow
  bnSummaries : List BnSummary
  groupSummaries : List GroupSummary
  day : ℚ

/-- The string comparator used by the sorts; `localeCompare` is modelled
as code-unit lexicographic order. -/
def stringLeb (a b : String) : Bool :=
  decide (a ≤ b)

/-- Model of `computeRows(rows, opts?)` from libcompute. -/
noncomputable def computeRows (rows : List TrackerRow) (opts : ComputeOpts) : ComputeResult :=
  let dayRaw : ℚ := ((⌊safeNum (.num (opts.day.getD 1))⌋ : ℤ) : ℚ)
  let day := clamp dayRaw 1 5
  let useAttrition := opts.useAttrition.getD true
  let manualWins := opts.manualWins.getD true
  let computedRows := rows.map (computeRow day useAttrition manualWins)
  let bnSummaries := ((bnFold computedRows).map Prod.snd).map (bnFinalize computedRows)
  let bnSorted := bnSummaries.mergeSort fun a b => stringLeb a.bn b.bn
  let gf := groupFold computedRows
  let groupSummaries := [groupFinalize computedRows gf.1, groupFinalize computedRows gf.2]
  let groupSorted := groupSummaries.mergeSort fun a b =>
    stringLeb (groupKeyString a.group) (groupKeyString b.group)
  { computedRows := computedRows, bnSummaries := bnSorted,
    groupSummaries := groupSorted, day := day }

/-- Helper: a clamp to `[0, hi]` with `0 ≤ hi` lands in `[0, hi]`. -/
theorem clamp_nonneg_le (n hi : ℚ) (h : 0 ≤ hi) :
    0 ≤ clamp n 0 hi ∧ clamp n 0 hi ≤ hi := by
  unfold clamp
  refine ⟨le_max_left 0 _, ?_⟩
  rw [max_le_iff]
  exact ⟨h, min_le_left _ _⟩

/-- Helper: the normalized on-hand count of a computed row is the
non-negative integer `max(0, floor(onHand))`. -/
theorem computeRow_onHand (day : ℚ) (useAttrition manualWins : Bool) (row : TrackerRow) :
    (computeRow day useAttrition manualWins row).onHand
      = ((max 0 ⌊row.onHand⌋ : ℤ) : ℚ) := rfl

/-- Helper: the reconciled destroyed value stays within `[0, onHand]`
whenever both candidate values do. -/
theorem destroyed_choice_bounds (onHand m a : ℚ) (ua mw : Bool)
    (hm : 0 ≤ m ∧ m ≤ onHand) (ha : 0 ≤ a ∧ a ≤ onHand) :
    0 ≤ (if ua then (if mw then max m a else a) else m) ∧
    (if ua then (if mw then max m a else a) else m) ≤ onHand := by
  by_cases h1 : ua <;> by_cases h2 : mw <;> simp only [h1, h2, if_true, if_false]
  · exact ⟨le_max_of_le_left hm.1, max_le hm.2 ha.2⟩
  · exact ha
  · exact hm
  · exact hm

/-- Helper: field-level description of a computed row: the destroyed
value is the policy choice between the clamped manual and clamped
modeled values, the remaining count is `max(0, onHand - destroyed)`,
and the on-hand, manual and modeled values satisfy their bounds. -/
theorem computeRow_fields (day : ℚ) (useAttrition manualWins : Bool)
    (row : TrackerRow) :
    ((computeRow day useAttrition manualWins row).destroyed =
      if useAttrition then
        (if manualWins then
          max (computeRow day useAttrition manualWins row).destroyedManualActive
            (computeRow day useAttrition manualWins row).destroyedAttrition
         else (computeRow day useAttrition manualWins row).destroyedAttrition)
      else (computeRow day useAttrition manualWins row).destroyedManualActive) ∧
    ((computeRow day useAttrition manualWins row).remaining =
      max 0 ((computeRow day useAttrition manualWins row).onHand -
        (computeRow day useAttrition manualWins row).destroyed)) ∧
    (0 ≤ (computeRow day useAttrition manualWins row).destroyedManualActive ∧
      (computeRow day useAttrition manualWins row).destroyedManualActive ≤
        (computeRow day useAttrition manualWins row).onHand) ∧
    (0 ≤ (computeRow day useAttrition manualWins row).destroyedAttrition ∧
      (computeRow day useAttrition manualWins row).destroyedAttrition ≤
        (computeRow day useAttrition manualWins row).onHand) ∧
    0 ≤ (computeRow day useAttrition manualWins row).onHand := by
  have hoh : (0:ℚ) ≤ ((max 0 ⌊safeNum (.num row.onHand)⌋ : ℤ) : ℚ) := by
    exact_mod_cast le_max_left (0:ℤ) ⌊safeNum (.num row.onHand)⌋
  refine ⟨rfl, rfl, ?_, ?_, hoh⟩
  · exact clamp_nonneg_le _ _ hoh
  · show 0 ≤ (if useAttrition then _ else 0) ∧ (if useAttrition then _ else 0) ≤ _
    by_cases hua : useAttrition <;> simp only [if_pos, if_neg, hua, if_true, if_false]
    · exact clamp_nonneg_le _ _ hoh
    · exact ⟨le_refl 0, hoh⟩

/-- C6: reconciliation policy.  The final destroyed count is
`max(manual, modeled)` under the manual-wins policy with modeling
enabled, the modeled value alone under the alternate policy with
modeling enabled, and the manual value alone with modeling disabled;
the manual and modeled values carried by the row are each already
clamped to `[0, onHand]`. -/
theorem computeRow_reconcile (day : ℚ) (useAttrition manualWins : Bool)
    (row : TrackerRow) :
    ((computeRow day useAttrition manualWins row).destroyed =
      if useAttrition then
        (if manualWins then
          max (computeRow day useAttrition manualWins row).destroyedManualActive
            (computeRow day useAttrition manualWins row).destroyedAttrition
         else (computeRow day useAttrition manualWins row).destroyedAttrition)
      else (computeRow day useAttrition manualWins row).destroyedManualActive) ∧
    (0 ≤ (computeRow day useAttrition manualWins row).destroyedManualActive ∧
      (computeRow day useAttrition manualWins row).destroyedManualActive ≤
        (computeRow day useAttrition manualWins row).onHand) ∧
    (0 ≤ (computeRow day useAttrition manualWins row).destroyedAttrition ∧
      (computeRow day useAttrition manualWins row).destroyedAttrition ≤
        (computeRow day useAttrition manualWins row).onHand) := by
  obtain ⟨h1, _, h3, h4, _⟩ := computeRow_fields day useAttrition manualWins row
  exact ⟨h1, h3, h4⟩

/-- Helper: every computed row satisfies the accounting invariant. -/
theorem computeRow_inv (day : ℚ) (useAttrition manualWins : Bool) (row : TrackerRow) :
    0 ≤ (computeRow day useAttrition manualWins row).onHand ∧
    0 ≤ (computeRow day useAttrition manualWins row).destroyed ∧
    (computeRow day useAttrition manualWins row).destroyed ≤
      (computeRow day useAttrition manualWins row).onHand ∧
    0 ≤ (computeRow day useAttrition manualWins row).remaining ∧
    (computeRow day useAttrition manualWins row).remaining ≤
      (computeRow day useAttrition manualWins row).onHand ∧
    (computeRow day useAttrition manualWins row).destroyed +
      (computeRow day useAttrition manualWins row).remaining =
      (computeRow day useAttrition manualWins row).onHand := by
  obtain ⟨h1, h2, h3, h4, h5⟩ := computeRow_fields day useAttrition manualWins row
  have hdes := destroyed_choice_bounds _ _ _ useAttrition manualWins h3 h4
  rw [← h1] at hdes
  have hrem : (computeRow day useAttrition manualWins row).remaining =
      (computeRow day useAttrition manualWins row).onHand -
        (computeRow day useAttrition manualWins row).destroyed := by
    rw [h2, max_eq_right (by linarith [hdes.2])]
  refine ⟨h5, hdes.1, hdes.2, ?_, ?_, ?_⟩ <;> rw [hrem] <;> linarith [hdes.1, hdes.2]

/-- C10: when the daily destroyed array is absent (or not an array), the
manual-destroyed computation of `computeRows` falls back to the legacy
scalar: both the active and the total value equal
`max(0, floor(destroyedManual))`, independent of the selected day. -/
theorem manualDestroyedParts_legacy (row : TrackerRow) (day : ℚ)
    (h : row.destroyedByDay = none) :
    manualDestroyedParts row day
      = (((max 0 ⌊row.destroyedManual.getD 0⌋ : ℤ) : ℚ),
          ((max 0 ⌊row.destroyedManual.getD 0⌋ : ℤ) : ℚ)) ∧
    manualDestroyedParts row day = manualDestroyedParts row 1 := by
  constructor <;> simp only [manualDestroyedParts, h]

/-- Witness for C10 at a concrete legacy row with `destroyedManual = 7`
and `day = 3`. -/
theorem manualDestroyedParts_legacy_witness :
    manualDestroyedParts
        { id := "1", bn := "1651", equipmentType := "T", onHand := 44,
          dailyAttritionPct := 2, destroyedManual := some 7,
          destroyedByDay := none } 3
      = (((max 0 ⌊(Option.some (7:ℚ)).getD 0⌋ : ℤ) : ℚ),
          ((max 0 ⌊(Option.some (7:ℚ)).getD 0⌋ : ℤ) : ℚ)) ∧
    manualDestroyedParts
        { id := "1", bn := "1651", equipmentType := "T", onHand := 44,
          dailyAttritionPct := 2, destroyedManual := some 7,
          destroyedByDay := none } 3
      = manualDestroyedParts
        { id := "1", bn := "1651", equipmentType := "T", onHand := 44,
          dailyAttritionPct := 2, destroyedManual := some 7,
          destroyedByDay := none } 1 :=
  manualDestroyedParts_legacy _ 3 rfl

/-- Helper: clamping an integer to `[0, MAX_SAFE_INTEGER]` yields a
non-negative integer value. -/
theorem clamp_intCast_msi (k : ℤ) :
    ∃ n : ℕ, clamp ((k : ℚ)) 0 MAX_SAFE_INTEGER = (n : ℚ) := by
  have hcast : clamp ((k : ℚ)) 0 MAX_SAFE_INTEGER
      = ((max 0 (min 9007199254740991 k) : ℤ) : ℚ) := by
    unfold clamp MAX_SAFE_INTEGER
    push_cast
    rfl
  refine ⟨(max 0 (min 9007199254740991 k)).toNat, ?_⟩
  rw [hcast]
  congr 1
  exact (Int.toNat_of_nonneg (le_max_left 0 _)).symm

/-- C9 (amended): totality of the daily-loss normalizers.  The
libcompute normalizer maps any input (absent, wrong length, negative,
fractional or non-numeric entries) to exactly 5 non-negative integers.
The page-level normalizer always returns exactly 5 entries and returns
non-negative integers whenever no entry coerces to NaN; a NaN entry is
propagated rather than mapped to 0 (see the counterexample). -/
theorem normalizeDestroyedByDay_total :
    (∀ arr : Option (List JsVal),
      (normalizeDestroyedByDay arr).length = 5 ∧
      ∀ q ∈ normalizeDestroyedByDay arr, 0 ≤ q ∧ ∃ n : ℕ, q = (n : ℚ)) ∧
    (∀ arr : Option (List JsVal),
      (pageNormalizeDestroyedByDay arr).length = 5 ∧
      ((∀ v ∈ arr.getD [], v ≠ JsVal.nan) →
        ∀ x ∈ pageNormalizeDestroyedByDay arr, ∃ n : ℕ, x = JsNum.num (n : ℚ))) := by
  constructor
  · intro arr
    constructor
    · simp [normalizeDestroyedByDay]
    · intro q hq
      simp only [normalizeDestroyedByDay, List.mem_map, List.mem_range] at hq
      obtain ⟨i, _, hi⟩ := hq
      obtain ⟨n, hn⟩ := clamp_intCast_msi (jround (safeNum (((arr.getD []).getD i JsVal.nullish))))
      rw [← hi, hn]
      exact ⟨Nat.cast_nonneg n, n, rfl⟩
  · intro arr
    constructor
    · simp [pageNormalizeDestroyedByDay]
    · intro hnomem x hx
      simp only [pageNormalizeDestroyedByDay, List.mem_map, List.mem_range] at hx
      obtain ⟨i, _, hi⟩ := hx
      have hv : jsNumberCoalesce0 ((arr.getD []).getD i JsVal.nullish) ≠ JsNum.nan := by
        rcases hgd : (arr.getD []).getD i JsVal.nullish with q | _ | _
        · simp [jsNumberCoalesce0]
        · exfalso
          have hmem : JsVal.nan ∈ arr.getD [] := by
            by_cases hlen : i < (arr.getD []).length
            · rw [List.getD_eq_getElem _ _ hlen] at hgd
              rw [← hgd]
              exact List.getElem_mem hlen
            · rw [List.getD_eq_default _ _ (le_of_not_lt hlen)] at hgd
              exact absurd hgd (by simp)
          exact hnomem _ hmem rfl
        · simp [jsNumberCoalesce0]
      rcases hc : jsNumberCoalesce0 ((arr.getD []).getD i JsVal.nullish) with q | _
      · rw [← hi, hc]
        refine ⟨(max 0 ⌊q⌋).toNat, ?_⟩
        simp only [jsFloorN, jsMax0, JsNum.num.injEq]
        have hcast : (((max 0 ⌊q⌋).toNat : ℕ) : ℚ) = ((max 0 ⌊q⌋ : ℤ) : ℚ) := by
          rw [← Int.cast_natCast]
          congr 1
          exact Int.toNat_of_nonneg (le_max_left 0 _)
        rw [hcast]
        push_cast
        rfl
      · exact absurd hc hv

/-- Counterexample for C9 as stated: the page-level normalizer maps a
NaN entry to NaN, not to 0, so its output is not always a list of
non-negative integers. -/
theorem pageNormalizeDestroyedByDay_nan_cex :
    JsNum.nan ∈ pageNormalizeDestroyedByDay (some [JsVal.nan]) ∧
    ∀ n : ℕ, JsNum.nan ≠ JsNum.num (n : ℚ) := by
  constructor
  · simp only [pageNormalizeDestroyedByDay, List.mem_map, List.mem_range]
    exact ⟨0, by norm_num, rfl⟩
  · intro n
    simp

/-- Helper: `Math.round(0) = 0`. -/
theorem jround_zero : jround 0 = 0 := by
  unfold jround
  rw [zero_add, Int.floor_eq_zero_iff]
  constructor <;> norm_num

/-- Witness for C9 at the absent input (`arr = none`): 5 entries, and
the entry `0` (libcompute) and `JsNum.num 0` (page) are non-negative
integers. -/
theorem normalizeDestroyedByDay_total_witness :
    (normalizeDestroyedByDay none).length = 5 ∧
    (0 ≤ (0:ℚ) ∧ ∃ n : ℕ, (0:ℚ) = (n : ℚ)) ∧
    (pageNormalizeDestroyedByDay none).length = 5 ∧
    (∃ n : ℕ, JsNum.num (0:ℚ) = JsNum.num (n : ℚ)) := by
  obtain ⟨h1, h2⟩ := normalizeDestroyedByDay_total
  obtain ⟨h1len, h1mem⟩ := h1 none
  obtain ⟨h2len, h2mem⟩ := h2 none
  have hf0 : clamp ((jround (safeNum JsVal.nullish) : ℤ) : ℚ) 0 MAX_SAFE_INTEGER = 0 := by
    rw [show safeNum JsVal.nullish = 0 from rfl, jround_zero]
    unfold clamp MAX_SAFE_INTEGER
    rw [Int.cast_zero, min_eq_right (by norm_num), max_self]
  refine ⟨h1len, h1mem 0 ?_, h2len, h2mem (by simp) (JsNum.num 0) ?_⟩
  · simp only [normalizeDestroyedByDay, List.mem_map, List.mem_range]
    refine ⟨0, by norm_num, ?_⟩
    simp only [Option.getD_none, List.getD]
    simpa using hf0
  · simp only [pageNormalizeDestroyedByDay, List.mem_map, List.mem_range]
    refine ⟨0, by norm_num, ?_⟩
    simp [jsNumberCoalesce0, jsFloorN, jsMax0]

/-- Helper: a successful lookup returns an entry of the list. -/
theorem mapGet_mem (m : List (String × BnSummary)) (k : String) (s : BnSummary)
    (h : mapGet m k = some s) : (k, s) ∈ m := by
  induction m with
  | nil => simp [mapGet] at h
  | cons p rest ih =>
    rw [mapGet] at h
    by_cases hk : p.1 = k
    · rw [if_pos hk] at h
      have hs : p.2 = s := Option.some.inj h
      have : (k, s) = p := by
        rw [← hk, ← hs]
      rw [this]
      exact List.mem_cons_self p rest
    · rw [if_neg hk] at h
      exact List.mem_cons_of_mem _ (ih h)

/-- Helper: a failed lookup means the key is absent. -/
theorem mapGet_eq_none (m : List (String × BnSummary)) (k : String)
    (h : mapGet m k = none) : k ∉ m.map Prod.fst := by
  induction m with
  | nil => simp
  | cons p rest ih =>
    rw [mapGet] at h
    by_cases hk : p.1 = k
    · rw [if_pos hk] at h
      exact absurd h (by simp)
    · rw [if_neg hk] at h
      simp only [List.map_cons, List.mem_cons]
      rintro (h1 | h2)
      · exact hk h1.symm
      · exact ih h h2

/-- Helper: the keys after a `set` are the old keys, with the new key
appended when it was absent. -/
theorem mapSet_keys (m : List (String × BnSummary)) (k : String) (v : BnSummary) :
    (mapSet m k v).map Prod.fst =
      if k ∈ m.map Prod.fst then m.map Prod.fst else m.map Prod.fst ++ [k] := by
  induction m with
  | nil => simp [mapSet]
  | cons p rest ih =>
    rw [mapSet]
    by_cases hk : p.1 = k
    · rw [if_pos hk]
      simp [hk]
    · rw [if_neg hk]
      simp only [List.map_cons, ih]
      by_cases hmem : k ∈ rest.map Prod.fst
      · rw [if_pos hmem, if_pos (by simp [hmem])]
      · rw [if_neg hmem, if_neg (by
          simp only [List.mem_cons, not_or]
          exact ⟨fun h => hk h.symm, hmem⟩)]
        simp

/-- Helper: membership in a map after a `set`, when the keys are
distinct: the new entry, or an old entry with a different key. -/
theorem mem_mapSet (m : List (String × BnSummary)) (k : String) (v : BnSummary)
    (p : String × BnSummary) (hnd : (m.map Prod.fst).Nodup)
    (hp : p ∈ mapSet m k v) : p = (k, v) ∨ (p ∈ m ∧ p.1 ≠ k) := by
  induction m with
  | nil =>
    rw [mapSet] at hp
    left
    simpa using hp
  | cons q rest ih =>
    rw [mapSet] at hp
    simp only [List.map_cons, List.nodup_cons] at hnd
    by_cases hk : q.1 = k
    · rw [if_pos hk] at hp
      rcases List.mem_cons.mp hp with h1 | h2
      · exact Or.inl h1
      · right
        refine ⟨List.mem_cons_of_mem _ h2, ?_⟩
        intro hpk
        exact hnd.1 (by rw [hk, ← hpk]; exact List.mem_map_of_mem Prod.fst h2)
    · rw [if_neg hk] at hp
      rcases List.mem_cons.mp hp with h1 | h2
      · right
        exact ⟨by rw [h1]; exact List.mem_cons_self q rest, by rw [h1]; exact hk⟩
      · rcases ih hnd.2 h2 with h3 | h4
        · exact Or.inl h3
        · exact Or.inr ⟨List.mem_cons_of_mem _ h4.1, h4.2⟩

/-- Helper: looking up the key just written returns the written value. -/
theorem mapGet_mapSet_self (m : List (String × BnSummary)) (k : String) (v : BnSummary) :
    mapGet (mapSet m k v) k = some v := by
  induction m with
  | nil => simp [mapSet, mapGet]
  | cons p rest ih =>
    rw [mapSet]
    by_cases hk : p.1 = k
    · rw [if_pos hk, mapGet, if_pos rfl]
    · rw [if_neg hk, mapGet, if_neg hk]
      exact ih

/-- The member rows of a BN group: computed rows whose canonical BN
equals the key (the membership test used by the rollup and by the
weighted-rate step). -/
def bnMemberRows (crows : List ComputedRow) (key : String) : List ComputedRow :=
  crows.filter fun r => normalizeBn r.bn == key

/-- The (onHand, remaining, destroyed) sums over the member rows of a
BN key. -/
def bnSums (crows : List ComputedRow) (key : String) : ℚ × ℚ × ℚ :=
  (((bnMemberRows crows key).map fun r => r.onHand).sum,
   ((bnMemberRows crows key).map fun r => r.remaining).sum,
   ((bnMemberRows crows key).map fun r => r.destroyed).sum)

/-- Helper: appending one row to the processed list adds that row to
exactly the sums of its own key. -/
theorem bnSums_append_single (crows : List ComputedRow) (r : ComputedRow) (key : String) :
    bnSums (crows ++ [r]) key =
      if normalizeBn r.bn == key then
        ((bnSums crows key).1 + r.onHand, (bnSums crows key).2.1 + r.remaining,
          (bnSums crows key).2.2 + r.destroyed)
      else bnSums crows key := by
  by_cases h : (normalizeBn r.bn == key) = true <;>
    simp [bnSums, bnMemberRows, List.filter_append, List.filter_cons, h]

/-- Helper: a key matched by no row has zero sums. -/
theorem bnSums_eq_zero (crows : List ComputedRow) (key : String)
    (h : ∀ r ∈ crows, ¬ normalizeBn r.bn = key) : bnSums crows key = (0, 0, 0) := by
  have : bnMemberRows crows key = [] := by
    rw [bnMemberRows, List.filter_eq_nil_iff]
    intro r hr
    simpa using h r hr
  simp [bnSums, this]

/-- Helper: invariant of the BN rollup loop.  Starting from a map whose
entries hold the per-key sums of the already-processed rows (with
distinct, non-empty keys covering the processed rows), the loop extends
this to the remaining rows. -/
theorem bnFold_aux (l : List ComputedRow) :
    ∀ (processed : List ComputedRow) (m : List (String × BnSummary)),
    (m.map Prod.fst).Nodup →
    (∀ p ∈ m, p.1 ≠ "" ∧ p.2.bn = p.1 ∧
      (p.2.onHand, p.2.remaining, p.2.destroyed) = bnSums processed p.1) →
    (∀ r ∈ processed, normalizeBn r.bn ≠ "" → normalizeBn r.bn ∈ m.map Prod.fst) →
    ((l.foldl bnStep m).map Prod.fst).Nodup ∧
    (∀ p ∈ l.foldl bnStep m, p.1 ≠ "" ∧ p.2.bn = p.1 ∧
      (p.2.onHand, p.2.remaining, p.2.destroyed) = bnSums (processed ++ l) p.1) := by
  induction l with
  | nil =>
    intro processed m hnd hinv _
    refine ⟨hnd, fun p hp => ?_⟩
    simpa using hinv p hp
  | cons r l2 ih =>
    intro processed m hnd hinv hcov
    rw [List.foldl_cons]
    have hstep : ∀ hresult, hresult = bnStep m r →
        ((hresult.map Prod.fst).Nodup ∧
          (∀ p ∈ hresult, p.1 ≠ "" ∧ p.2.bn = p.1 ∧
            (p.2.onHand, p.2.remaining, p.2.destroyed) = bnSums (processed ++ [r]) p.1) ∧
          (∀ r2 ∈ processed ++ [r],
            normalizeBn r2.bn ≠ "" → normalizeBn r2.bn ∈ hresult.map Prod.fst)) := by
      intro hresult hres
      by_cases hbn : normalizeBn r.bn = ""
      · rw [bnStep, if_pos hbn] at hres
        subst hres
        refine ⟨hnd, fun p hp => ?_, fun r2 hr2 hne => ?_⟩
        · obtain ⟨hp1, hp2, hp3⟩ := hinv p hp
          refine ⟨hp1, hp2, ?_⟩
          rw [bnSums_append_single, if_neg (by
            simp only [beq_iff_eq, hbn]
            exact fun h => hp1 h.symm), hp3]
        · rcases List.mem_append.mp hr2 with h1 | h2
          · exact hcov r2 h1 hne
          · rw [List.mem_singleton.mp h2] at hne
            exact absurd hbn hne
      · rw [bnStep, if_neg hbn] at hres
        have hkeys := mapSet_keys m (normalizeBn r.bn)
          (bnAccum ((mapGet m (normalizeBn r.bn)).getD (bnInit (normalizeBn r.bn))) r)
        constructor
        · rw [hres, hkeys]
          split_ifs with hmem
          · exact hnd
          · refine List.Nodup.append hnd (List.nodup_singleton _) ?_
            intro a ha hb
            rw [List.mem_singleton.mp hb] at ha
            exact hmem ha
        constructor
        · intro p hp
          rw [hres] at hp
          rcases mem_mapSet _ _ _ _ hnd hp with h1 | ⟨h2, h3⟩
          · subst h1
            refine ⟨hbn, ?_, ?_⟩
            · cases hget : mapGet m (normalizeBn r.bn) with
              | none => simp [hget, bnAccum, bnInit]
              | some s0 =>
                have := (hinv _ (mapGet_mem _ _ _ hget)).2.1
                simp only [hget, Option.getD_some, bnAccum]
                exact this
            · cases hget : mapGet m (normalizeBn r.bn) with
              | none =>
                have hnotin := mapGet_eq_none _ _ hget
                have hzero : bnSums processed (normalizeBn r.bn) = (0, 0, 0) := by
                  refine bnSums_eq_zero _ _ fun r2 hr2 heq => ?_
                  exact hnotin (heq ▸ hcov r2 hr2 (heq.symm ▸ hbn))
                rw [bnSums_append_single, if_pos (beq_self_eq_true _), hzero]
                simp [hget, bnAccum, bnInit]
              | some s0 =>
                have hs0 := (hinv _ (mapGet_mem _ _ _ hget)).2.2
                rw [bnSums_append_single, if_pos (beq_self_eq_true _), ← hs0]
                simp [hget, bnAccum]
          · obtain ⟨hp1, hp2, hp3⟩ := hinv p h2
            refine ⟨hp1, hp2, ?_⟩
            rw [bnSums_append_single, if_neg (by
              simp only [beq_iff_eq]
              exact fun h => h3 h.symm), hp3]
        · intro r2 hr2 hne
          have hsup : ∀ k, k ∈ m.map Prod.fst ∨ k = normalizeBn r.bn →
              k ∈ hresult.map Prod.fst := by
            intro k hk
            rw [hres, hkeys]
            split_ifs with hmem
            · rcases hk with h1 | h2
              · exact h1
              · rw [h2]
                exact hmem
            · rcases hk with h1 | h2
              · exact List.mem_append_left _ h1
              · rw [h2]
                exact List.mem_append_right _ (List.mem_singleton_self _)
          rcases List.mem_append.mp hr2 with h1 | h2
          · exact hsup _ (Or.inl (hcov r2 h1 hne))
          · rw [List.mem_singleton.mp h2]
            exact hsup _ (Or.inr rfl)
    obtain ⟨hnd2, hinv2, hcov2⟩ := hstep (bnStep m r) rfl
    have := ih (processed ++ [r]) (bnStep m r) hnd2 hinv2 hcov2
    rwa [List.append_assoc, List.singleton_append] at this

/-- Helper: every entry of the finished BN rollup map holds exactly the
sums of its member rows, under a non-empty canonical key. -/
theorem bnFold_spec (crows : List ComputedRow) :
    ∀ p ∈ bnFold crows, p.1 ≠ "" ∧ p.2.bn = p.1 ∧
      (p.2.onHand, p.2.remaining, p.2.destroyed) = bnSums crows p.1 := by
  have := bnFold_aux crows [] [] (by simp) (by simp) (by simp)
  intro p hp
  simpa using this.2 p hp

/-- The member rows of one of the two fixed groups: computed rows whose
two-way membership test selects that group. -/
def groupMemberRows (crows : List ComputedRow) (g : GroupKey) : List ComputedRow :=
  crows.filter fun r => groupForBn r.bn == g

/-- The (onHand, remaining, destroyed) sums over the member rows of a
group. -/
def groupSums (crows : List ComputedRow) (g : GroupKey) : ℚ × ℚ × ℚ :=
  (((groupMemberRows crows g).map fun r => r.onHand).sum,
   ((groupMemberRows crows g).map fun r => r.remaining).sum,
   ((groupMemberRows crows g).map fun r => r.destroyed).sum)

/-- Helper: group sums over a cons. -/
theorem groupSums_cons (r : ComputedRow) (l : List ComputedRow) (g : GroupKey) :
    groupSums (r :: l) g =
      if groupForBn r.bn == g then
        ((groupSums l g).1 + r.onHand, (groupSums l g).2.1 + r.remaining,
          (groupSums l g).2.2 + r.destroyed)
      else groupSums l g := by
  by_cases h : (groupForBn r.bn == g) = true
  · rw [if_pos h]
    simp only [groupSums, groupMemberRows, List.filter_cons, h, if_true, List.map_cons,
      List.sum_cons, Prod.mk.injEq]
    refine ⟨by ring, by ring, by ring⟩
  · rw [if_neg h]
    simp [groupSums, groupMemberRows, List.filter_cons, h]

/-- Helper: the group rollup loop adds exactly the member-row sums of
each group to its accumulator, preserving the other fields. -/
theorem groupFold_aux (l : List ComputedRow) :
    ∀ a b : GroupSummary,
    (l.foldl groupStep (a, b)).1.group = a.group ∧
    (l.foldl groupStep (a, b)).2.group = b.group ∧
    (l.foldl groupStep (a, b)).1.onHand = a.onHand + (groupSums l .bcg165).1 ∧
    (l.foldl groupStep (a, b)).1.remaining = a.remaining + (groupSums l .bcg165).2.1 ∧
    (l.foldl groupStep (a, b)).1.destroyed = a.destroyed + (groupSums l .bcg165).2.2 ∧
    (l.foldl groupStep (a, b)).2.onHand = b.onHand + (groupSums l .other).1 ∧
    (l.foldl groupStep (a, b)).2.remaining = b.remaining + (groupSums l .other).2.1 ∧
    (l.foldl groupStep (a, b)).2.destroyed = b.destroyed + (groupSums l .other).2.2 := by
  induction l with
  | nil =>
    intro a b
    simp [groupSums, groupMemberRows]
  | cons r l2 ih =>
    intro a b
    rw [List.foldl_cons]
    by_cases hg : groupForBn r.bn = .bcg165
    · rw [groupStep, if_pos hg]
      obtain ⟨h1, h2, h3, h4, h5, h6, h7, h8⟩ := ih (groupAccum a r) b
      rw [groupSums_cons (g := .bcg165), if_pos (by simp [hg])]
      rw [groupSums_cons (g := .other), if_neg (by simp [hg])]
      refine ⟨h1, h2, ?_, ?_, ?_, h6, h7, h8⟩
      · rw [h3]
        simp only [groupAccum]
        ring
      · rw [h4]
        simp only [groupAccum]
        ring
      · rw [h5]
        simp only [groupAccum]
        ring
    · have hother : groupForBn r.bn = .other := by
        cases hgr : groupForBn r.bn
        · exact absurd hgr hg
        · rfl
      rw [groupStep, if_neg hg]
      obtain ⟨h1, h2, h3, h4, h5, h6, h7, h8⟩ := ih a (groupAccum b r)
      rw [groupSums_cons (g := .bcg165), if_neg (by simp [hother])]
      rw [groupSums_cons (g := .other), if_pos (by simp [hother])]
      refine ⟨h1, h2, h3, h4, h5, ?_, ?_, ?_⟩
      · rw [h6]
        simp only [groupAccum]
        ring
      · rw [h7]
        simp only [groupAccum]
        ring
      · rw [h8]
        simp only [groupAccum]
        ring

/-- Helper: every BN summary produced by `computeRows` carries a
non-empty canonical key and holds exactly the member-row sums. -/
theorem mem_bnSummaries_sums (rows : List TrackerRow) (opts : ComputeOpts) (s : BnSummary)
    (hs : s ∈ (computeRows rows opts).bnSummaries) :
    s.bn ≠ "" ∧
    (s.onHand, s.remaining, s.destroyed)
      = bnSums (computeRows rows opts).computedRows s.bn := by
  simp only [computeRows] at hs ⊢
  rw [List.mem_mergeSort] at hs
  obtain ⟨s2, hs2, heq⟩ := List.mem_map.mp hs
  obtain ⟨p, hp, heq2⟩ := List.mem_map.mp hs2
  obtain ⟨h1, h2, h3⟩ := bnFold_spec _ p hp
  subst heq2
  subst heq
  refine ⟨?_, ?_⟩
  · show p.2.bn ≠ ""
    rw [h2]
    exact h1
  · show (p.2.onHand, p.2.remaining, p.2.destroyed) = bnSums _ p.2.bn
    rw [h2]
    exact h3

/-- Helper: `groupFinalize` preserves the group key. -/
theorem groupFinalize_group (c : List ComputedRow) (g : GroupSummary) :
    (groupFinalize c g).group = g.group := rfl

/-- Helper: `groupFinalize` preserves the three summed fields. -/
theorem groupFinalize_sums (c : List ComputedRow) (g : GroupSummary) :
    ((groupFinalize c g).onHand, (groupFinalize c g).remaining,
      (groupFinalize c g).destroyed) = (g.onHand, g.remaining, g.destroyed) := rfl

/-- Helper: every group summary produced by `computeRows` holds exactly
the member-row sums of its group. -/
theorem mem_groupSummaries_sums (rows : List TrackerRow) (opts : ComputeOpts)
    (g : GroupSummary) (hg : g ∈ (computeRows rows opts).groupSummaries) :
    (g.onHand, g.remaining, g.destroyed)
      = groupSums (computeRows rows opts).computedRows g.group := by
  simp only [computeRows, groupFold] at hg ⊢
  rw [List.mem_mergeSort] at hg
  obtain ⟨hpart1, hpart2, h3, h4, h5, h6, h7, h8⟩ :=
    groupFold_aux (rows.map (computeRow
      (clamp ((⌊safeNum (.num ((ComputeOpts.day opts).getD 1))⌋ : ℤ) : ℚ) 1 5)
      ((ComputeOpts.useAttrition opts).getD true)
      ((ComputeOpts.manualWins opts).getD true)))
      (groupInit .bcg165) (groupInit .other)
  rcases List.mem_cons.mp hg with h | h
  · subst h
    rw [groupFinalize_sums, groupFinalize_group, hpart1.trans rfl, h3, h4, h5]
    simp [groupInit]
  · rw [List.mem_singleton.mp h]
    rw [groupFinalize_sums, groupFinalize_group, hpart2.trans rfl, h6, h7, h8]
    simp [groupInit]

/-- C4: summary sums equal member sums.  Every BN summary and every
group summary produced by `computeRows` holds, in its onHand, remaining
and destroyed fields, exactly the sums of the corresponding fields over
the computed rows belonging to that group (by canonical BN key for BN
summaries, by the fixed two-way membership test for group summaries). -/
theorem computeRows_rollup_sums (rows : List TrackerRow) (opts : ComputeOpts) :
    (∀ s ∈ (computeRows rows opts).bnSummaries,
      s.onHand = ((bnMemberRows (computeRows rows opts).computedRows s.bn).map
          fun r => r.onHand).sum ∧
      s.remaining = ((bnMemberRows (computeRows rows opts).computedRows s.bn).map
          fun r => r.remaining).sum ∧
      s.destroyed = ((bnMemberRows (computeRows rows opts).computedRows s.bn).map
          fun r => r.destroyed).sum) ∧
    (∀ g ∈ (computeRows rows opts).groupSummaries,
      g.onHand = ((groupMemberRows (computeRows rows opts).computedRows g.group).map
          fun r => r.onHand).sum ∧
      g.remaining = ((groupMemberRows (computeRows rows opts).computedRows g.group).map
          fun r => r.remaining).sum ∧
      g.destroyed = ((groupMemberRows (computeRows rows opts).computedRows g.group).map
          fun r => r.destroyed).sum) := by
  constructor
  · intro s hs
    have h := (mem_bnSummaries_sums rows opts s hs).2
    rw [bnSums, Prod.mk.injEq, Prod.mk.injEq] at h
    exact ⟨h.1, h.2.1, h.2.2⟩
  · intro g hg
    have h := mem_groupSummaries_sums rows opts g hg
    rw [groupSums, Prod.mk.injEq, Prod.mk.injEq] at h
    exact ⟨h.1, h.2.1, h.2.2⟩

/-- Helper: the componentwise sums of a list of rows that each satisfy
the accounting invariant satisfy it as well. -/
theorem sum_inv_of_rows (l : List ComputedRow)
    (hP : ∀ r ∈ l, 0 ≤ r.remaining ∧ r.remaining ≤ r.onHand ∧
      r.destroyed + r.remaining = r.onHand) :
    0 ≤ (l.map fun r => r.remaining).sum ∧
    (l.map fun r => r.remaining).sum ≤ (l.map fun r => r.onHand).sum ∧
    (l.map fun r => r.destroyed).sum + (l.map fun r => r.remaining).sum
      = (l.map fun r => r.onHand).sum := by
  induction l with
  | nil => simp
  | cons r l2 ih =>
    obtain ⟨h1, h2, h3⟩ := hP r (List.mem_cons_self r l2)
    obtain ⟨h4, h5, h6⟩ := ih fun r2 hr2 => hP r2 (List.mem_cons_of_mem r hr2)
    simp only [List.map_cons, List.sum_cons]
    refine ⟨by linarith, by linarith, by linarith⟩

/-- C2: accounting invariant.  Every computed row, every BN summary and
every group summary produced by `computeRows` satisfies
`0 ≤ remaining ≤ onHand` and `destroyed + remaining = onHand` exactly. -/
theorem computeRows_accounting (rows : List TrackerRow) (opts : ComputeOpts) :
    (∀ r ∈ (computeRows rows opts).computedRows,
      0 ≤ r.remaining ∧ r.remaining ≤ r.onHand ∧
        r.destroyed + r.remaining = r.onHand) ∧
    (∀ s ∈ (computeRows rows opts).bnSummaries,
      0 ≤ s.remaining ∧ s.remaining ≤ s.onHand ∧
        s.destroyed + s.remaining = s.onHand) ∧
    (∀ g ∈ (computeRows rows opts).groupSummaries,
      0 ≤ g.remaining ∧ g.remaining ≤ g.onHand ∧
        g.destroyed + g.remaining = g.onHand) := by
  have hrows : ∀ r ∈ (computeRows rows opts).computedRows,
      0 ≤ r.remaining ∧ r.remaining ≤ r.onHand ∧
        r.destroyed + r.remaining = r.onHand := by
    intro r hr
    simp only [computeRows] at hr
    obtain ⟨row, _, heq⟩ := List.mem_map.mp hr
    obtain ⟨_, _, _, h4, h5, h6⟩ := computeRow_inv
      (clamp ((⌊safeNum (.num ((ComputeOpts.day opts).getD 1))⌋ : ℤ) : ℚ) 1 5)
      ((ComputeOpts.useAttrition opts).getD true)
      ((ComputeOpts.manualWins opts).getD true) row
    rw [← heq]
    exact ⟨h4, h5, h6⟩
  refine ⟨hrows, fun s hs => ?_, fun g hg => ?_⟩
  · have h := (mem_bnSummaries_sums rows opts s hs).2
    rw [bnSums, Prod.mk.injEq, Prod.mk.injEq] at h
    have hsub : ∀ r ∈ bnMemberRows (computeRows rows opts).computedRows s.bn,
        0 ≤ r.remaining ∧ r.remaining ≤ r.onHand ∧
          r.destroyed + r.remaining = r.onHand := by
      intro r hr
      exact hrows r (List.mem_of_mem_filter hr)
    obtain ⟨h1, h2, h3⟩ := sum_inv_of_rows _ hsub
    rw [h.1, h.2.1, h.2.2]
    exact ⟨h1, h2, h3⟩
  · have h := mem_groupSummaries_sums rows opts g hg
    rw [groupSums, Prod.mk.injEq, Prod.mk.injEq] at h
    have hsub : ∀ r ∈ groupMemberRows (computeRows rows opts).computedRows g.group,
        0 ≤ r.remaining ∧ r.remaining ≤ r.onHand ∧
          r.destroyed + r.remaining = r.onHand := by
      intro r hr
      exact hrows r (List.mem_of_mem_filter hr)
    obtain ⟨h1, h2, h3⟩ := sum_inv_of_rows _ hsub
    rw [h.1, h.2.1, h.2.2]
    exact ⟨h1, h2, h3⟩

/-- Concrete input row used by the rollup witnesses. -/
def wRow : TrackerRow :=
  { id := "1", bn := "1651", equipmentType := "Type 96 MBT", onHand := 44,
    dailyAttritionPct := 50, destroyedManual := none,
    destroyedByDay := some [JsVal.num 0, JsVal.num 1, JsVal.num 0, JsVal.num 0,
      JsVal.num 0] }

/-- The computed row of `wRow` under day 1 and default flags. -/
noncomputable def wCr : ComputedRow := computeRow 1 true true wRow

/-- The computed row list of the witness input. -/
noncomputable def wCrows : List ComputedRow := [wCr]

/-- The single BN summary of the witness input. -/
noncomputable def wBnS : BnSummary := bnFinalize wCrows (bnAccum (bnInit "1651") wCr)

/-- The `165_BCG` group summary of the witness input. -/
noncomputable def wGrpS : GroupSummary :=
  groupFinalize wCrows (groupAccum (groupInit .bcg165) wCr)

/-- Helper: the default options select day 1. -/
theorem wday_eq :
    clamp ((⌊safeNum (JsVal.num ((ComputeOpts.day ComputeOpts.default).getD 1))⌋ : ℤ) : ℚ)
      1 5 = 1 := by
  rw [show (ComputeOpts.day ComputeOpts.default).getD 1 = (1:ℚ) from rfl]
  rw [show safeNum (JsVal.num (1:ℚ)) = 1 from rfl]
  rw [Int.floor_one, Int.cast_one]
  unfold clamp
  rw [min_eq_right (by norm_num), max_self]

/-- Helper: the witness computed row is a member of the computed rows. -/
theorem wCr_mem : wCr ∈ (computeRows [wRow] ComputeOpts.default).computedRows := by
  simp only [computeRows, List.map_cons, List.map_nil]
  rw [wday_eq,
    show (ComputeOpts.useAttrition ComputeOpts.default).getD true = true from rfl,
    show (ComputeOpts.manualWins ComputeOpts.default).getD true = true from rfl]
  exact List.mem_singleton_self _

/-- Helper: the witness BN summary is a member of the BN summaries. -/
theorem wBnS_mem : wBnS ∈ (computeRows [wRow] ComputeOpts.default).bnSummaries := by
  simp only [computeRows, List.map_cons, List.map_nil]
  rw [wday_eq,
    show (ComputeOpts.useAttrition ComputeOpts.default).getD true = true from rfl,
    show (ComputeOpts.manualWins ComputeOpts.default).getD true = true from rfl]
  rw [List.mem_mergeSort]
  have hbn : normalizeBn (computeRow 1 true true wRow).bn = "1651" := by decide
  have hfold : bnFold [computeRow 1 true true wRow]
      = [("1651", bnAccum (bnInit "1651") (computeRow 1 true true wRow))] := by
    rw [bnFold, List.foldl_cons, List.foldl_nil]
    simp only [bnStep, hbn]
    rw [if_neg (by decide : ¬ ("1651" : String) = "")]
    rfl
  rw [hfold]
  simp only [List.map_cons, List.map_nil, wBnS, wCrows, wCr]
  exact List.mem_singleton_self _

/-- Helper: the witness group summary is a member of the group
summaries. -/
theorem wGrpS_mem : wGrpS ∈ (computeRows [wRow] ComputeOpts.default).groupSummaries := by
  simp only [computeRows, List.map_cons, List.map_nil]
  rw [wday_eq,
    show (ComputeOpts.useAttrition ComputeOpts.default).getD true = true from rfl,
    show (ComputeOpts.manualWins ComputeOpts.default).getD true = true from rfl]
  rw [List.mem_mergeSort]
  have hgf : groupFold [computeRow 1 true true wRow]
      = (groupAccum (groupInit .bcg165) (computeRow 1 true true wRow),
          groupInit .other) := by
    rw [groupFold, List.foldl_cons, List.foldl_nil, groupStep,
      if_pos (by decide : groupForBn (computeRow 1 true true wRow).bn = GroupKey.bcg165)]
  rw [hgf]
  simp only [wGrpS, wCrows, wCr]
  exact List.mem_cons_self _ _

/-- Witness for C2 at the single-row input `wRow` with default options. -/
theorem computeRows_accounting_witness :
    (0 ≤ wCr.remaining ∧ wCr.remaining ≤ wCr.onHand ∧
      wCr.destroyed + wCr.remaining = wCr.onHand) ∧
    (0 ≤ wBnS.remaining ∧ wBnS.remaining ≤ wBnS.onHand ∧
      wBnS.destroyed + wBnS.remaining = wBnS.onHand) ∧
    (0 ≤ wGrpS.remaining ∧ wGrpS.remaining ≤ wGrpS.onHand ∧
      wGrpS.destroyed + wGrpS.remaining = wGrpS.onHand) :=
  ⟨(computeRows_accounting [wRow] ComputeOpts.default).1 wCr wCr_mem,
   (computeRows_accounting [wRow] ComputeOpts.default).2.1 wBnS wBnS_mem,
   (computeRows_accounting [wRow] ComputeOpts.default).2.2 wGrpS wGrpS_mem⟩

/-- Witness for C4 at the single-row input `wRow` with default options. -/
theorem computeRows_rollup_sums_witness :
    (wBnS.onHand = ((bnMemberRows (computeRows [wRow] ComputeOpts.default).computedRows
        wBnS.bn).map fun r => r.onHand).sum ∧
      wBnS.remaining = ((bnMemberRows (computeRows [wRow] ComputeOpts.default).computedRows
        wBnS.bn).map fun r => r.remaining).sum ∧
      wBnS.destroyed = ((bnMemberRows (computeRows [wRow] ComputeOpts.default).computedRows
        wBnS.bn).map fun r => r.destroyed).sum) ∧
    (wGrpS.onHand = ((groupMemberRows (computeRows [wRow] ComputeOpts.default).computedRows
        wGrpS.group).map fun r => r.onHand).sum ∧
      wGrpS.remaining = ((groupMemberRows (computeRows [wRow] ComputeOpts.default).computedRows
        wGrpS.group).map fun r => r.remaining).sum ∧
      wGrpS.destroyed = ((groupMemberRows (computeRows [wRow] ComputeOpts.default).computedRows
        wGrpS.group).map fun r => r.destroyed).sum) :=
  ⟨(computeRows_rollup_sums [wRow] ComputeOpts.default).1 wBnS wBnS_mem,
   (computeRows_rollup_sums [wRow] ComputeOpts.default).2 wGrpS wGrpS_mem⟩
